import Mathlib

/-!
Verification of the SSH config parser in `get_host.py` (`SSHConfigParser`).

Text is modelled as lists of Unicode code points (`List Nat`); the helper
`str` converts a Lean string literal to that representation.  Python's
`str.strip()` / `str.split(None, 1)` / `str.lower()` are embedded for the
ASCII range, which is all the parser's keywords and the spec's examples use.

A Python `dict` (insertion ordered; assignment to an existing key updates
the value in place, keeping its position) is embedded as an association
list `List (Str × α)` with the operations `dinsert` / `dget`.

`SSHConfigParser._parse_config` iterates over `readlines()` with 1-based
line numbers; this is `runLines` below, started at 1, followed by the
final flush of the in-progress host (`commitCurrent`).
-/

abbrev Str := List Nat

def str (s : String) : Str := s.toList.map Char.toNat

/-- Python `str.isspace` characters in the ASCII range, as used by
`strip()` and `split(None)`: space, tab, LF, VT, FF, CR. -/
def pyIsSpace (c : Nat) : Bool :=
  c = 32 || c = 9 || c = 10 || c = 11 || c = 12 || c = 13

/-- Python `str.strip()`: remove leading and trailing whitespace. -/
def pyStrip (s : Str) : Str :=
  ((s.dropWhile pyIsSpace).reverse.dropWhile pyIsSpace).reverse

/-- Python `str.lower()` restricted to ASCII: map `A`-`Z` to `a`-`z`. -/
def lowerChar (c : Nat) : Nat :=
  if 65 ≤ c ∧ c ≤ 90 then c + 32 else c

/-- Python `str.lower()` on a whole string. -/
def pyLower (s : Str) : Str := s.map lowerChar

/-- Python `s.split(None, 1)`: skip leading whitespace, take the first
whitespace-delimited token, skip the separating whitespace, and keep the
remainder verbatim.  Returns `[]`, `[tok]`, or `[tok, rest]`. -/
def pySplit1 (s : Str) : List Str :=
  let s1 := s.dropWhile pyIsSpace
  let tok := s1.takeWhile (fun c => !pyIsSpace c)
  let rest := (s1.dropWhile (fun c => !pyIsSpace c)).dropWhile pyIsSpace
  if s1.isEmpty then []
  else if rest.isEmpty then [tok]
  else [tok, rest]

/-- Values stored in a host's configuration dict: the synthetic
`line_number` diagnostic is a Python `int`, every parsed directive value a
Python `str`. -/
inductive PyVal where
  | int : Nat → PyVal
  | str : Str → PyVal
deriving DecidableEq

/-- Python dict assignment `d[k] = v`: update in place if the key is
present (keeping its position in iteration order), else append. -/
def dinsert {α : Type} : List (Str × α) → Str → α → List (Str × α)
  | [], k, v => [(k, v)]
  | (k', v') :: d, k, v =>
      if k' = k then (k, v) :: d else (k', v') :: dinsert d k v

/-- Python `d.get(k)` / `d[k]` lookup: first (only) binding of `k`. -/
def dget {α : Type} : List (Str × α) → Str → Option α
  | [], _ => none
  | (k', v) :: d, k => if k' = k then some v else dget d k

/-- One host's configuration dict. -/
abbrev Config := List (Str × PyVal)

/-- The parser's `self.hosts` dict: alias → configuration. -/
abbrev Hosts := List (Str × Config)

def keyHost : Str := str "host"
def keyHostname : Str := str "hostname"
def keyLineNumber : Str := str "line_number"

/-- The loop state of `_parse_config`: the table built so far plus the
in-progress host (`current_host`, `current_config`). -/
structure ParseSt where
  hosts : Hosts
  currentHost : Option Str
  currentConfig : Config
deriving DecidableEq

/-- Flush `self.hosts[current_host] = current_config` when a host is in
progress; used both when a new `Host` line is reached and at end of
input. -/
def commitCurrent (st : ParseSt) : Hosts :=
  match st.currentHost with
  | some h => dinsert st.hosts h st.currentConfig
  | none => st.hosts

/-- The parsed key/value view of one raw line: `none` when the loop body
skips it (blank after stripping, comment, or fewer than two fields),
otherwise the lower-cased key and the verbatim value. -/
def lineParts (rawLine : Str) : Option (Str × Str) :=
  if (pyStrip rawLine).isEmpty || (pyStrip rawLine).head? = some 35 then none
  else
    match pySplit1 (pyStrip rawLine) with
    | [p0, p1] => some (pyLower p0, p1)
    | _ => none

/-- The alias declared by a raw line, when it is a `Host` line. -/
def hostAliasOf (rawLine : Str) : Option Str :=
  match lineParts rawLine with
  | some (k, v) => if k = keyHost then some v else none
  | none => none

/-- One iteration of the `for line_num, line in enumerate(lines, 1)` loop
body of `_parse_config`. -/
def processLine (st : ParseSt) (lineNum : Nat) (rawLine : Str) : ParseSt :=
  match lineParts rawLine with
  | none => st
  | some (key, value) =>
      if key = keyHost then
        { hosts := commitCurrent st
          currentHost := some value
          currentConfig := [(keyLineNumber, PyVal.int lineNum)] }
      else
        match st.currentHost with
        | some _ =>
            { st with currentConfig := dinsert st.currentConfig key (PyVal.str value) }
        | none => st

/-- The whole loop, threading the 1-based line counter. -/
def runLines (st : ParseSt) (n : Nat) : List Str → ParseSt
  | [] => st
  | l :: ls => runLines (processLine st n l) (n + 1) ls

/-- Body of `_parse_config` on the lines read from an existing, readable
file: run the loop from line 1 on the empty table, then flush the last
host. -/
def parseLines (lines : List Str) : Hosts :=
  commitCurrent (runLines ⟨[], none, []⟩ 1 lines)

/-- Whole `_parse_config` including the file access: `none` models a
nonexistent or unreadable config path, on which the method prints a
message and returns, leaving `self.hosts` empty. -/
def parse_config (file : Option (List Str)) : Hosts :=
  match file with
  | none => []
  | some lines => parseLines lines

/-- Method `get_host`: `self.hosts.get(hostname)`. -/
def get_host (hosts : Hosts) (hostname : Str) : Option Config :=
  dget hosts hostname

/-- Method `list_hosts`: `list(self.hosts.keys())`, in insertion order. -/
def list_hosts (hosts : Hosts) : List Str :=
  hosts.map Prod.fst

/-- Does `s` begin with `p`? (helper for Python's `in` on strings). -/
def beginsWith : Str → Str → Bool
  | [], _ => true
  | _ :: _, [] => false
  | a :: p, b :: s => a = b && beginsWith p s

/-- Python `p in s` for strings: contiguous substring test. -/
def hasSub (p : Str) : Str → Bool
  | [] => p.isEmpty
  | c :: s => beginsWith p (c :: s) || hasSub p s

/-- Method `search_hosts`: build a fresh dict of the entries whose alias
contains the pattern, case-insensitively, iterating `self.hosts` in
order. -/
def search_hosts (hosts : Hosts) (pattern' : Str) : Hosts :=
  hosts.foldl
    (fun acc p =>
      if hasSub (pyLower pattern') (pyLower p.1) then dinsert acc p.1 p.2 else acc)
    []

/-- Method `find_host_by_ip`: scan `self.hosts` in order and return the first
alias that equals the address or whose `hostname` directive equals it. -/
def find_host_by_ip (hosts : Hosts) (ip_address : Str) : Option Str :=
  match hosts with
  | [] => none
  | (h, c) :: rest =>
      if h = ip_address ∨ dget c keyHostname = some (PyVal.str ip_address) then some h
      else find_host_by_ip rest ip_address

/-!
Reference model for `get_all_hosts` (claim about aliasing).  Python's
`self.hosts.copy()` copies only the top level: the per-host configuration
dicts inside the copy are the very objects the parser holds.  To speak
about that sharing we give the heap explicitly: configurations live in a
store `heap`, and both the parser's table and the returned copy map
aliases to references (indices) into it.
-/

/-- Parser state with the per-host dicts held by reference. -/
structure PState where
  hostsRef : List (Str × Nat)
  heap : List Config
deriving DecidableEq

/-- The object graph after parsing: entry `i` of the table points at heap
cell `i`. -/
def toPState (d : Hosts) : PState :=
  { hostsRef := (List.range d.length).zip (d.map Prod.fst) |>.map (fun p => (p.2, p.1))
    heap := d.map Prod.snd }

/-- Method `get_all_hosts`: `self.hosts.copy()` — a fresh top-level dict holding
the same references to the per-host dicts. -/
def get_all_hosts (p : PState) : List (Str × Nat) :=
  p.hostsRef

/-- Method `get_host` in the reference model: follow the table to the heap. -/
def get_host_ref (p : PState) (hostname : Str) : Option Config :=
  (dget p.hostsRef hostname).bind (fun r => p.heap.get? r)

/-- Caller-side mutation `view[a][k] = v` of a nested configuration dict
reached through a returned top-level dict `view`: the write lands in the
shared heap cell. -/
def setNested (p : PState) (view : List (Str × Nat)) (a k : Str) (v : PyVal) : PState :=
  match dget view a with
  | some r => { p with heap := p.heap.set r (dinsert (p.heap.getD r []) k v) }
  | none => p

/-- Caller-side mutation `del view[a]` of the returned top-level dict:
a pure operation on the copy, the parser state is untouched. -/
def topDelete (view : List (Str × Nat)) (a : Str) : List (Str × Nat) :=
  view.filter (fun p => !(p.1 = a : Bool))

/-- The directive set accumulated by the loop for the host block whose
lines are `ls`, starting from the seeded configuration `cfg`: each
non-skipped line's lower-cased key is assigned its value.  (Used to state
what the entry of the last declaration of an alias contains.) -/
def accumDirs (cfg : Config) : List Str → Config
  | [] => cfg
  | l :: ls =>
      accumDirs
        (match lineParts l with
         | some (k, v) => dinsert cfg k (PyVal.str v)
         | none => cfg) ls

/-- The aliases declared by the `Host` lines of a file, in file order. -/
def hostAliases (lines : List Str) : List Str :=
  lines.filterMap hostAliasOf

/-- The alias the in-progress host would add to the table on flush. -/
def pendKeys : Option Str → List Str
  | some a => [a]
  | none => []

/-- The test `find_host_by_ip` applies to each entry: the alias itself is
the address, or the entry's `hostname` directive is. -/
def matchesAddr (ip : Str) (q : Str × Config) : Prop :=
  q.1 = ip ∨ dget q.2 keyHostname = some (PyVal.str ip)


/-! ### Dictionary lemmas -/

theorem dget_dinsert_self {α : Type} (d : List (Str × α)) (k : Str) (v : α) :
    dget (dinsert d k v) k = some v := by
  induction d with
  | nil => simp [dinsert, dget]
  | cons p d ih =>
      by_cases h : p.1 = k
      · simp [dinsert, dget, h]
      · simp [dinsert, dget, h, ih]

theorem dget_mem {α : Type} {d : List (Str × α)} {a : Str} {c : α}
    (h : dget d a = some c) : (a, c) ∈ d := by
  induction d with
  | nil => simp [dget] at h
  | cons p d ih =>
      obtain ⟨k', v'⟩ := p
      by_cases hp : k' = a
      · subst hp
        simp [dget] at h
        subst h
        exact List.mem_cons_self _ _
      · simp [dget, hp] at h
        exact List.mem_cons_of_mem _ (ih h)

theorem mem_dinsert {α : Type} {d : List (Str × α)} {k a : Str} {v c : α}
    (h : (a, c) ∈ dinsert d k v) : (a, c) ∈ d ∨ (a = k ∧ c = v) := by
  induction d with
  | nil => simp [dinsert] at h; right; exact h
  | cons p d ih =>
      by_cases hp : p.1 = k
      · simp [dinsert, hp] at h
        rcases h with h | h
        · right; exact h
        · left; exact List.mem_cons_of_mem _ h
      · simp [dinsert, hp] at h
        rcases h with h | h
        · left; simp [h]
        · rcases ih h with h | h
          · left; exact List.mem_cons_of_mem _ h
          · right; exact h

theorem dinsert_fresh {α : Type} {d : List (Str × α)} {k : Str} (v : α)
    (h : k ∉ d.map Prod.fst) : dinsert d k v = d ++ [(k, v)] := by
  induction d with
  | nil => simp [dinsert]
  | cons p d ih =>
      obtain ⟨k', v'⟩ := p
      simp only [List.map_cons, List.mem_cons, not_or] at h
      have hne : ¬ k' = k := fun e => h.1 e.symm
      simp [dinsert, hne, ih h.2]

theorem dget_eq_none_of_not_mem {α : Type} {d : List (Str × α)} {a : Str}
    (h : a ∉ d.map Prod.fst) : dget d a = none := by
  induction d with
  | nil => simp [dget]
  | cons p d ih =>
      obtain ⟨k', v'⟩ := p
      simp only [List.map_cons, List.mem_cons, not_or] at h
      have hne : ¬ k' = a := fun e => h.1 e.symm
      simp [dget, hne, ih h.2]

theorem keys_dinsert {α : Type} (d : List (Str × α)) (k : Str) (v : α) :
    (dinsert d k v).map Prod.fst =
      if k ∈ d.map Prod.fst then d.map Prod.fst else d.map Prod.fst ++ [k] := by
  induction d with
  | nil => simp [dinsert]
  | cons p d ih =>
      obtain ⟨k', v'⟩ := p
      by_cases hp : k' = k
      · subst hp
        simp [dinsert]
      · have hne : ¬ k = k' := fun e => hp e.symm
        by_cases hm : k ∈ d.map Prod.fst
        · simp [dinsert, hp, ih, hm, List.mem_cons, hne]
        · simp [dinsert, hp, ih, hm, List.mem_cons, hne]

theorem keys_nodup_dinsert {α : Type} {d : List (Str × α)} (k : Str) (v : α)
    (h : (d.map Prod.fst).Nodup) : ((dinsert d k v).map Prod.fst).Nodup := by
  rw [keys_dinsert]
  split
  · exact h
  · next hk => simp [List.nodup_append, h, hk]

/-! ### Lower-casing -/

theorem lowerChar_idem (c : Nat) : lowerChar (lowerChar c) = lowerChar c := by
  unfold lowerChar
  split_ifs <;> omega

theorem pyLower_idem (s : Str) : pyLower (pyLower s) = pyLower s := by
  induction s with
  | nil => rfl
  | cons c s ih => simp [pyLower, lowerChar_idem] at ih ⊢

theorem lineParts_lower {l k v : Str} (h : lineParts l = some (k, v)) :
    pyLower k = k := by
  unfold lineParts at h
  split at h
  · simp at h
  · split at h
    · next p0 p1 heq =>
        simp at h
        rw [← h.1]
        exact pyLower_idem p0
    · simp at h

/-! ### Single-iteration lemmas -/

theorem hostAliasOf_eq_some {l v : Str} :
    hostAliasOf l = some v ↔ lineParts l = some (keyHost, v) := by
  unfold hostAliasOf
  constructor
  · intro h
    split at h
    · next k w heq =>
        split at h
        · next hk =>
            simp at h
            rw [heq, hk, h]
        · simp at h
    · simp at h
  · intro h
    rw [h]
    simp

theorem processLine_skip {l : Str} (st : ParseSt) (n : Nat)
    (h : lineParts l = none) : processLine st n l = st := by
  unfold processLine
  rw [h]

theorem processLine_host {l v : Str} (st : ParseSt) (n : Nat)
    (h : hostAliasOf l = some v) :
    processLine st n l =
      ⟨commitCurrent st, some v, [(keyLineNumber, PyVal.int n)]⟩ := by
  rw [hostAliasOf_eq_some] at h
  unfold processLine
  rw [h]
  simp

theorem processLine_directive {l k v : Str} {h : Str} (st : ParseSt) (n : Nat)
    (hp : lineParts l = some (k, v)) (hk : ¬ k = keyHost)
    (hc : st.currentHost = some h) :
    processLine st n l =
      { st with currentConfig := dinsert st.currentConfig k (PyVal.str v) } := by
  unfold processLine
  rw [hp]
  simp [hk, hc]

theorem processLine_directive_none {l k v : Str} (st : ParseSt) (n : Nat)
    (hp : lineParts l = some (k, v)) (hk : ¬ k = keyHost)
    (hc : st.currentHost = none) :
    processLine st n l = st := by
  unfold processLine
  rw [hp]
  simp [hk, hc]

theorem processLine_nonhost_frame {l : Str} (st : ParseSt) (n : Nat)
    (h : hostAliasOf l = none) :
    (processLine st n l).hosts = st.hosts ∧
      (processLine st n l).currentHost = st.currentHost := by
  cases hp : lineParts l with
  | none =>
      rw [processLine_skip st n hp]
      exact ⟨rfl, rfl⟩
  | some kv =>
      obtain ⟨k, v⟩ := kv
      have hk : ¬ k = keyHost := by
        intro e
        unfold hostAliasOf at h
        rw [hp, e] at h
        simp at h
      cases hc : st.currentHost with
      | none =>
          rw [processLine_directive_none st n hp hk hc]
          exact ⟨rfl, hc⟩
      | some a =>
          rw [processLine_directive st n hp hk hc]
          exact ⟨rfl, hc⟩

/-! ### Loop lemmas -/

theorem runLines_append (xs : List Str) : ∀ (ys : List Str) (st : ParseSt) (n : Nat),
    runLines st n (xs ++ ys) = runLines (runLines st n xs) (n + xs.length) ys := by
  induction xs with
  | nil => intro ys st n; simp [runLines]
  | cons l xs ih =>
      intro ys st n
      have e1 : (l :: xs) ++ ys = l :: (xs ++ ys) := rfl
      rw [e1]
      show runLines (processLine st n l) (n + 1) (xs ++ ys) =
        runLines (runLines (processLine st n l) (n + 1) xs) (n + (l :: xs).length) ys
      rw [ih]
      simp only [List.length_cons]
      have : n + 1 + xs.length = n + (xs.length + 1) := by omega
      rw [this]

theorem runLines_nonhost {a : Str} (ys : List Str) : ∀ (st : ParseSt) (n : Nat),
    (∀ l ∈ ys, hostAliasOf l = none) → st.currentHost = some a →
    runLines st n ys = ⟨st.hosts, some a, accumDirs st.currentConfig ys⟩ := by
  induction ys with
  | nil =>
      intro st n _ hc
      obtain ⟨hs, ch, cc⟩ := st
      simp only at hc
      subst hc
      rfl
  | cons l ys ih =>
      intro st n hys hc
      have hl : hostAliasOf l = none := hys l (List.mem_cons_self _ _)
      have hys' : ∀ l ∈ ys, hostAliasOf l = none :=
        fun x hx => hys x (List.mem_cons_of_mem _ hx)
      simp only [runLines, accumDirs]
      cases hp : lineParts l with
      | none =>
          rw [processLine_skip st n hp]
          exact ih st (n + 1) hys' hc
      | some kv =>
          obtain ⟨k, v⟩ := kv
          have hk : ¬ k = keyHost := by
            intro e
            unfold hostAliasOf at hl
            rw [hp, e] at hl
            simp at hl
          rw [processLine_directive st n hp hk hc]
          exact ih _ (n + 1) hys' hc

/-! ### Key order and membership through the loop -/

theorem keys_commitCurrent (st : ParseSt)
    (h : ∀ a, st.currentHost = some a → a ∉ st.hosts.map Prod.fst) :
    (commitCurrent st).map Prod.fst =
      st.hosts.map Prod.fst ++ pendKeys st.currentHost := by
  obtain ⟨hs, ch, cc⟩ := st
  cases ch with
  | none => simp [commitCurrent, pendKeys]
  | some a =>
      have ha : a ∉ hs.map Prod.fst := h a rfl
      show (dinsert hs a cc).map Prod.fst = hs.map Prod.fst ++ [a]
      rw [dinsert_fresh _ ha]
      simp

theorem mem_commitCurrent {st : ParseSt} {q : Str × Config}
    (h : q ∈ commitCurrent st) : q ∈ st.hosts ∨ q.2 = st.currentConfig := by
  obtain ⟨hs, ch, cc⟩ := st
  cases ch with
  | none => exact Or.inl h
  | some a =>
      obtain ⟨x, c⟩ := q
      rcases mem_dinsert h with h | h
      · exact Or.inl h
      · exact Or.inr h.2

theorem keys_runLines (ys : List Str) : ∀ (st : ParseSt) (n : Nat),
    (pendKeys st.currentHost ++ hostAliases ys).Nodup →
    (∀ k ∈ pendKeys st.currentHost ++ hostAliases ys, k ∉ st.hosts.map Prod.fst) →
    (commitCurrent (runLines st n ys)).map Prod.fst =
      st.hosts.map Prod.fst ++ (pendKeys st.currentHost ++ hostAliases ys) := by
  induction ys with
  | nil =>
      intro st n hnd hfr
      simp only [runLines]
      have h : ∀ a, st.currentHost = some a → a ∉ st.hosts.map Prod.fst := by
        intro a ha
        apply hfr
        rw [ha]
        simp [pendKeys, hostAliases]
      rw [keys_commitCurrent st h]
      simp [hostAliases]
  | cons l ys ih =>
      intro st n hnd hfr
      simp only [runLines]
      cases hal : hostAliasOf l with
      | none =>
          have hframe := processLine_nonhost_frame st n hal
          have hA : hostAliases (l :: ys) = hostAliases ys := by
            simp [hostAliases, List.filterMap_cons, hal]
          rw [hA] at hnd hfr
          have key := ih (processLine st n l) (n + 1)
            (by rw [hframe.2]; exact hnd)
            (by rw [hframe.2, hframe.1]; exact hfr)
          rw [key, hframe.1, hframe.2, hA]
      | some b =>
          rw [processLine_host st n hal]
          have hA : hostAliases (l :: ys) = b :: hostAliases ys := by
            simp [hostAliases, List.filterMap_cons, hal]
          rw [hA] at hnd hfr
          have hcur : ∀ x, st.currentHost = some x → x ∉ st.hosts.map Prod.fst := by
            intro x hx
            apply hfr
            rw [hx]
            simp [pendKeys]
          have hkc : (commitCurrent st).map Prod.fst =
              st.hosts.map Prod.fst ++ pendKeys st.currentHost :=
            keys_commitCurrent st hcur
          have hnd' : (pendKeys (some b) ++ hostAliases ys).Nodup :=
            (List.nodup_append.mp hnd).2.1
          have hfr2 : ∀ k ∈ pendKeys (some b) ++ hostAliases ys,
              k ∉ (commitCurrent st).map Prod.fst := by
            intro k hk
            rw [hkc]
            intro hmem
            rcases List.mem_append.mp hmem with h | h
            · exact hfr k (List.mem_append_right _ hk) h
            · exact (List.nodup_append.mp hnd).2.2 h hk
          have key := ih ⟨commitCurrent st, some b, [(keyLineNumber, PyVal.int n)]⟩
            (n + 1) hnd' hfr2
          rw [key, hkc, hA]
          simp [pendKeys]

/-! ### Lower-case keys invariant -/

theorem lower_step (st : ParseSt) (n : Nat) (l : Str)
    (h1 : ∀ q ∈ st.hosts, ∀ p ∈ q.2, pyLower p.1 = p.1)
    (h2 : ∀ p ∈ st.currentConfig, pyLower p.1 = p.1) :
    (∀ q ∈ (processLine st n l).hosts, ∀ p ∈ q.2, pyLower p.1 = p.1) ∧
      (∀ p ∈ (processLine st n l).currentConfig, pyLower p.1 = p.1) := by
  cases hp : lineParts l with
  | none =>
      rw [processLine_skip st n hp]
      exact ⟨h1, h2⟩
  | some kv =>
      obtain ⟨k, v⟩ := kv
      have hk : pyLower k = k := lineParts_lower hp
      by_cases hkey : k = keyHost
      · subst hkey
        rw [processLine_host st n (hostAliasOf_eq_some.mpr hp)]
        constructor
        · intro q hq p hpc
          rcases mem_commitCurrent hq with h | h
          · exact h1 q h p hpc
          · rw [h] at hpc
            exact h2 p hpc
        · intro p hpc
          simp at hpc
          rw [hpc]
          show pyLower keyLineNumber = keyLineNumber
          decide
      · cases hch : st.currentHost with
        | none =>
            rw [processLine_directive_none st n hp hkey hch]
            exact ⟨h1, h2⟩
        | some a =>
            rw [processLine_directive st n hp hkey hch]
            refine ⟨h1, ?_⟩
            intro p hpc
            obtain ⟨pk, pv⟩ := p
            rcases mem_dinsert hpc with h | h
            · exact h2 _ h
            · rw [h.1]
              exact hk

theorem lower_invariant (ls : List Str) : ∀ (st : ParseSt) (n : Nat),
    (∀ q ∈ st.hosts, ∀ p ∈ q.2, pyLower p.1 = p.1) →
    (∀ p ∈ st.currentConfig, pyLower p.1 = p.1) →
    (∀ q ∈ (runLines st n ls).hosts, ∀ p ∈ q.2, pyLower p.1 = p.1) ∧
      (∀ p ∈ (runLines st n ls).currentConfig, pyLower p.1 = p.1) := by
  induction ls with
  | nil => intro st n h1 h2; exact ⟨h1, h2⟩
  | cons l ls ih =>
      intro st n h1 h2
      simp only [runLines]
      have step := lower_step st n l h1 h2
      exact ih (processLine st n l) (n + 1) step.1 step.2

/-! ### Substring test -/

theorem beginsWith_iff (p : Str) : ∀ s : Str, beginsWith p s = true ↔ ∃ r, s = p ++ r := by
  induction p with
  | nil => intro s; simp [beginsWith]
  | cons a p ih =>
      intro s
      cases s with
      | nil => simp [beginsWith]
      | cons b s =>
          simp only [beginsWith, Bool.and_eq_true, decide_eq_true_eq, ih]
          constructor
          · rintro ⟨hab, r, hr⟩
            exact ⟨r, by simp [hab, hr]⟩
          · rintro ⟨r, hr⟩
            simp at hr
            exact ⟨hr.1.symm, r, hr.2⟩

theorem hasSub_iff (p : Str) : ∀ s : Str, hasSub p s = true ↔ ∃ l r, s = l ++ p ++ r := by
  intro s
  induction s with
  | nil =>
      cases p with
      | nil => simp [hasSub]
      | cons a p =>
          simp only [hasSub, List.isEmpty_cons]
          constructor
          · intro h; simp at h
          · rintro ⟨l, r, h⟩
            rcases l with _ | ⟨x, l⟩ <;> simp at h
  | cons c s ih =>
      simp only [hasSub, Bool.or_eq_true, ih, beginsWith_iff]
      constructor
      · rintro (⟨r, hr⟩ | ⟨l, r, hr⟩)
        · exact ⟨[], r, by simpa using hr⟩
        · exact ⟨c :: l, r, by simp [hr]⟩
      · rintro ⟨l, r, hr⟩
        cases l with
        | nil =>
            left
            exact ⟨r, by simpa using hr⟩
        | cons x l =>
            right
            simp at hr
            exact ⟨l, r, by rw [List.append_assoc]; exact hr.2⟩

/-! ### `search_hosts` versus filtering -/

theorem search_foldl (pat : Str) (d : Hosts) : ∀ acc : Hosts,
    (∀ k ∈ d.map Prod.fst, k ∉ acc.map Prod.fst) →
    (d.map Prod.fst).Nodup →
    d.foldl
        (fun acc p =>
          if hasSub (pyLower pat) (pyLower p.1) then dinsert acc p.1 p.2 else acc)
        acc =
      acc ++ d.filter (fun p => hasSub (pyLower pat) (pyLower p.1)) := by
  induction d with
  | nil => intro acc _ _; simp
  | cons q d ih =>
      intro acc hfr hnd
      obtain ⟨k, c⟩ := q
      have hk : k ∉ acc.map Prod.fst := hfr k (by simp)
      have hnd1 : (k :: d.map Prod.fst).Nodup := by simpa using hnd
      have hnd0 := List.nodup_cons.mp hnd1
      have hfr' : ∀ x ∈ d.map Prod.fst, x ∉ (acc ++ [(k, c)]).map Prod.fst := by
        intro x hx
        simp only [List.map_append, List.mem_append]
        rintro (h | h)
        · exact hfr x (by simp [hx]) h
        · simp at h
          rw [h] at hx
          exact hnd0.1 hx
      have hfr'' : ∀ x ∈ d.map Prod.fst, x ∉ acc.map Prod.fst := by
        intro x hx
        exact hfr x (by simp [hx])
      by_cases hc : hasSub (pyLower pat) (pyLower k) = true
      · have e := ih (acc ++ [(k, c)]) hfr' hnd0.2
        simp only [List.foldl_cons, List.filter_cons]
        rw [if_pos hc, if_pos hc, dinsert_fresh _ hk, e]
        simp
      · have e := ih acc hfr'' hnd0.2
        simp only [List.foldl_cons, List.filter_cons]
        rw [if_neg hc, if_neg hc, e]

/-! ### Keys of the parsed table are unique -/

theorem processLine_hosts_cases (st : ParseSt) (n : Nat) (l : Str) :
    (processLine st n l).hosts = st.hosts ∨
      (processLine st n l).hosts = commitCurrent st := by
  cases hp : lineParts l with
  | none => exact Or.inl (by rw [processLine_skip st n hp])
  | some kv =>
      obtain ⟨k, v⟩ := kv
      by_cases hkey : k = keyHost
      · subst hkey
        rw [processLine_host st n (hostAliasOf_eq_some.mpr hp)]
        exact Or.inr rfl
      · cases hch : st.currentHost with
        | none => exact Or.inl (by rw [processLine_directive_none st n hp hkey hch])
        | some a => exact Or.inl (by rw [processLine_directive st n hp hkey hch])

theorem nodup_keys_commitCurrent (st : ParseSt)
    (h : (st.hosts.map Prod.fst).Nodup) : ((commitCurrent st).map Prod.fst).Nodup := by
  obtain ⟨hs, ch, cc⟩ := st
  cases ch with
  | none => exact h
  | some a => exact keys_nodup_dinsert a cc h

theorem nodup_keys_runLines (ls : List Str) : ∀ (st : ParseSt) (n : Nat),
    (st.hosts.map Prod.fst).Nodup → ((runLines st n ls).hosts.map Prod.fst).Nodup := by
  induction ls with
  | nil => intro st n h; exact h
  | cons l ls ih =>
      intro st n h
      simp only [runLines]
      apply ih
      rcases processLine_hosts_cases st n l with hc | hc
      · rw [hc]; exact h
      · rw [hc]; exact nodup_keys_commitCurrent st h

theorem parseLines_keys_nodup (lines : List Str) :
    ((parseLines lines).map Prod.fst).Nodup := by
  unfold parseLines
  exact nodup_keys_commitCurrent _ (nodup_keys_runLines lines ⟨[], none, []⟩ 1 (by simp))

/-! ### `find_host_by_ip` scan order -/

theorem find_host_none_iff (hosts : Hosts) (ip : Str) :
    find_host_by_ip hosts ip = none ↔ ∀ q ∈ hosts, ¬ matchesAddr ip q := by
  induction hosts with
  | nil => simp [find_host_by_ip]
  | cons q rest ih =>
      obtain ⟨h, c⟩ := q
      by_cases hm : h = ip ∨ dget c keyHostname = some (PyVal.str ip)
      · rw [show find_host_by_ip ((h, c) :: rest) ip = some h from by
          simp [find_host_by_ip, hm]]
        constructor
        · intro hx; exact absurd hx (by simp)
        · intro hall; exact absurd hm (hall (h, c) (List.mem_cons_self _ _))
      · rw [show find_host_by_ip ((h, c) :: rest) ip = find_host_by_ip rest ip from by
          simp [find_host_by_ip, hm]]
        rw [ih]
        constructor
        · intro hall q hq
          rcases List.mem_cons.mp hq with rfl | hq
          · exact hm
          · exact hall q hq
        · intro hall q hq
          exact hall q (List.mem_cons_of_mem _ hq)

theorem find_host_some_decomp (hosts : Hosts) (ip : Str) : ∀ h : Str,
    find_host_by_ip hosts ip = some h →
    ∃ pre c suf, hosts = pre ++ (h, c) :: suf ∧ matchesAddr ip (h, c) ∧
      ∀ q ∈ pre, ¬ matchesAddr ip q := by
  induction hosts with
  | nil => intro h hh; simp [find_host_by_ip] at hh
  | cons q rest ih =>
      intro h hh
      obtain ⟨a, c⟩ := q
      by_cases hm : a = ip ∨ dget c keyHostname = some (PyVal.str ip)
      · simp [find_host_by_ip, hm] at hh
        subst hh
        exact ⟨[], c, rest, rfl, hm, by simp⟩
      · simp only [find_host_by_ip, if_neg hm] at hh
        obtain ⟨pre, c', suf, he, hmt, hpre⟩ := ih h hh
        refine ⟨(a, c) :: pre, c', suf, by rw [he]; rfl, hmt, ?_⟩
        intro q hq
        rcases List.mem_cons.mp hq with rfl | hq
        · exact hm
        · exact hpre q hq

/-! ### Reference-model lemmas for the shallow copy -/

theorem toPState_ref_lt {d : Hosts} {a : Str} {r : Nat}
    (h : dget (toPState d).hostsRef a = some r) : r < d.length := by
  have hm := dget_mem h
  unfold toPState at hm
  simp only [List.mem_map] at hm
  obtain ⟨p, hp, he⟩ := hm
  have hz := List.of_mem_zip hp
  have hr1 : p.1 < d.length := List.mem_range.mp hz.1
  have hr2 : p.1 = r := by
    have := congrArg Prod.snd he
    simpa using this
  omega

theorem get_host_ref_setNested (d : Hosts) (a k : Str) (v : PyVal) (r : Nat)
    (h : dget (get_all_hosts (toPState d)) a = some r) :
    get_host_ref (setNested (toPState d) (get_all_hosts (toPState d)) a k v) a =
      some (dinsert ((toPState d).heap.getD r []) k v) := by
  have hlt : r < (toPState d).heap.length := by
    have h1 : r < d.length := toPState_ref_lt h
    unfold toPState
    simpa using h1
  have h' : dget (toPState d).hostsRef a = some r := h
  simp only [setNested, get_all_hosts, h', get_host_ref, Option.some_bind]
  rw [List.get?_set_eq_of_lt _ hlt]

theorem setNested_frame (p : PState) (view : List (Str × Nat)) (a k : Str) (v : PyVal) :
    (setNested p view a k v).hostsRef = p.hostsRef := by
  unfold setNested
  cases dget view a <;> rfl

/-! ### Stripping and splitting a Host line -/

theorem pyStrip_of_ends {s : Str} {x y : Nat} (hx : s.head? = some x)
    (hxs : pyIsSpace x = false) (hy : s.getLast? = some y)
    (hys : pyIsSpace y = false) : pyStrip s = s := by
  cases s with
  | nil => simp at hx
  | cons a t =>
      simp only [List.head?_cons, Option.some.injEq] at hx
      subst hx
      unfold pyStrip
      have h1 : List.dropWhile pyIsSpace (a :: t) = a :: t := by
        simp [List.dropWhile_cons, hxs]
      rw [h1]
      have hrev : (a :: t).reverse.head? = some y := by
        rw [List.head?_reverse]
        exact hy
      cases hr : (a :: t).reverse with
      | nil => rw [hr] at hrev; simp at hrev
      | cons b u =>
          rw [hr] at hrev
          simp only [List.head?_cons, Option.some.injEq] at hrev
          subst hrev
          have h2 : List.dropWhile pyIsSpace (b :: u) = b :: u := by
            simp [List.dropWhile_cons, hys]
          rw [h2, ← hr, List.reverse_reverse]

theorem lineParts_host_line (v : Str) {c d : Nat}
    (hh : v.head? = some c) (hcs : pyIsSpace c = false)
    (hl : v.getLast? = some d) (hds : pyIsSpace d = false) :
    lineParts (str "Host " ++ v) = some (keyHost, v) := by
  have hH : str "Host " = [72, 111, 115, 116, 32] := by decide
  obtain ⟨c0, t, rfl⟩ : ∃ c0 t, v = c0 :: t := by
    cases v with
    | nil => simp at hh
    | cons c0 t => exact ⟨c0, t, rfl⟩
  simp only [List.head?_cons, Option.some.injEq] at hh
  subst hh
  have e72 : pyIsSpace 72 = false := by decide
  have e111 : pyIsSpace 111 = false := by decide
  have e115 : pyIsSpace 115 = false := by decide
  have e116 : pyIsSpace 116 = false := by decide
  have e32 : pyIsSpace 32 = true := by decide
  have hstrip : pyStrip (str "Host " ++ c0 :: t) = str "Host " ++ c0 :: t := by
    apply pyStrip_of_ends (x := 72) (y := d)
    · rw [hH]; rfl
    · exact e72
    · rw [List.getLast?_append_of_ne_nil _ (by simp)]; exact hl
    · exact hds
  have hsplit : pySplit1 (str "Host " ++ c0 :: t) = [[72, 111, 115, 116], c0 :: t] := by
    rw [hH]
    show pySplit1 (72 :: 111 :: 115 :: 116 :: 32 :: c0 :: t) = _
    simp [pySplit1, List.dropWhile_cons, List.takeWhile_cons, e72, e111, e115, e116,
      e32, hcs]
  have hlow : pyLower [72, 111, 115, 116] = keyHost := by decide
  unfold lineParts
  rw [hstrip, hsplit, hH]
  simp [hlow]

/-! ### The claims -/

/-- C1: when the same alias is declared on two `Host` lines, the entry
committed for it is exactly the directive set accumulated after the last
declaration, seeded with that declaration's line number — whatever was
accumulated before (here: anything in `xs`) is replaced, not merged. -/
theorem c1_duplicate_alias_last_wins (xs : List Str) (L : Str) (ys : List Str) (a : Str)
    (hL : hostAliasOf L = some a) (hys : ∀ l ∈ ys, hostAliasOf l = none) :
    dget (parseLines (xs ++ L :: ys)) a =
      some (accumDirs [(keyLineNumber, PyVal.int (xs.length + 1))] ys) := by
  unfold parseLines
  rw [runLines_append xs (L :: ys) ⟨[], none, []⟩ 1]
  have h1 : runLines (runLines ⟨[], none, []⟩ 1 xs) (1 + xs.length) (L :: ys) =
      runLines ⟨commitCurrent (runLines ⟨[], none, []⟩ 1 xs), some a,
        [(keyLineNumber, PyVal.int (1 + xs.length))]⟩ (1 + xs.length + 1) ys := by
    simp only [runLines]
    rw [processLine_host _ (1 + xs.length) hL]
  rw [h1, runLines_nonhost ys _ (1 + xs.length + 1) hys rfl]
  show dget (dinsert (commitCurrent (runLines ⟨[], none, []⟩ 1 xs)) a
      (accumDirs [(keyLineNumber, PyVal.int (1 + xs.length))] ys)) a = _
  rw [dget_dinsert_self]
  have e : 1 + xs.length = xs.length + 1 := by omega
  rw [e]

/-- Witness for C1 at the spec's example `Host a / Port 1 / Host a /
HostName x`: the entry for `a` holds `hostname=x` and no `port` key. -/
theorem c1_witness :
    dget (parseLines [str "Host a", str "Port 1", str "Host a", str "HostName x"])
        (str "a") =
      some (accumDirs [(keyLineNumber, PyVal.int 3)] [str "HostName x"]) ∧
    accumDirs [(keyLineNumber, PyVal.int 3)] [str "HostName x"] =
      [(keyLineNumber, PyVal.int 3), (keyHostname, PyVal.str (str "x"))] ∧
    dget (accumDirs [(keyLineNumber, PyVal.int 3)] [str "HostName x"]) (str "port") =
      none := by
  refine ⟨?_, by decide, by decide⟩
  exact c1_duplicate_alias_last_wins [str "Host a", str "Port 1"] (str "Host a")
    [str "HostName x"] (str "a") (by decide) (by decide)

/-- C2 (counterexample): mutating a nested per-host mapping inside the
structure returned by `get_all_hosts` does change the result of a
subsequent `get_host` — `self.hosts.copy()` is only a shallow copy, so
the claim's "any mutation leaves every subsequent get_host unchanged" is
false at this input. -/
theorem c2_counterexample :
    ¬ (get_host_ref
        (setNested (toPState (parseLines [str "Host a", str "HostName x"]))
          (get_all_hosts (toPState (parseLines [str "Host a", str "HostName x"])))
          (str "a") (str "port") (PyVal.str (str "9")))
        (str "a") =
      get_host_ref (toPState (parseLines [str "Host a", str "HostName x"]))
        (str "a")) := by
  decide

/-- C2 (amended): `get_all_hosts` returns a shallow copy — the parser's
top-level alias table is untouched by writes made through the returned
structure, but the per-host mappings are shared, so a nested write
through the copy is visible in the next `get_host` of that alias. -/
theorem c2_shallow_copy (d : Hosts) (a k : Str) (v : PyVal) (r : Nat)
    (h : dget (get_all_hosts (toPState d)) a = some r) :
    (setNested (toPState d) (get_all_hosts (toPState d)) a k v).hostsRef =
        (toPState d).hostsRef ∧
      get_host_ref (setNested (toPState d) (get_all_hosts (toPState d)) a k v) a =
        some (dinsert ((toPState d).heap.getD r []) k v) :=
  ⟨setNested_frame _ _ _ _ _, get_host_ref_setNested d a k v r h⟩

/-- Witness for the amended C2 on a concrete parsed file. -/
theorem c2_witness :
    (setNested (toPState (parseLines [str "Host b", str "HostName y"]))
        (get_all_hosts (toPState (parseLines [str "Host b", str "HostName y"])))
        (str "b") (str "port") (PyVal.str (str "9"))).hostsRef =
      (toPState (parseLines [str "Host b", str "HostName y"])).hostsRef ∧
    get_host_ref
        (setNested (toPState (parseLines [str "Host b", str "HostName y"]))
          (get_all_hosts (toPState (parseLines [str "Host b", str "HostName y"])))
          (str "b") (str "port") (PyVal.str (str "9")))
        (str "b") =
      some (dinsert
        ((toPState (parseLines [str "Host b", str "HostName y"])).heap.getD 0 [])
        (str "port") (PyVal.str (str "9"))) :=
  c2_shallow_copy (parseLines [str "Host b", str "HostName y"]) (str "b") (str "port")
    (PyVal.str (str "9")) 0 (by decide)

/-- C3: `find_host_by_ip` returns the first alias in directory order
whose alias string or `hostname` directive equals the address, and `none`
exactly when no entry matches; on `Host dev / HostName 10.0.0.5` both
lookups return `dev`. -/
theorem c3_find_host_by_ip_first (hosts : Hosts) (ip : Str) :
    (∀ h, find_host_by_ip hosts ip = some h →
      ∃ pre c suf, hosts = pre ++ (h, c) :: suf ∧ matchesAddr ip (h, c) ∧
        ∀ q ∈ pre, ¬ matchesAddr ip q) ∧
    (find_host_by_ip hosts ip = none ↔ ∀ q ∈ hosts, ¬ matchesAddr ip q) ∧
    find_host_by_ip (parseLines [str "Host dev", str "HostName 10.0.0.5"])
        (str "10.0.0.5") = some (str "dev") ∧
    find_host_by_ip (parseLines [str "Host dev", str "HostName 10.0.0.5"])
        (str "dev") = some (str "dev") :=
  ⟨find_host_some_decomp hosts ip, find_host_none_iff hosts ip, by decide, by decide⟩

/-- Witness for C3: the decomposition at the spec's example. -/
theorem c3_witness :
    ∃ pre c suf,
      parseLines [str "Host dev", str "HostName 10.0.0.5"] =
          pre ++ (str "dev", c) :: suf ∧
        matchesAddr (str "10.0.0.5") (str "dev", c) ∧
        ∀ q ∈ pre, ¬ matchesAddr (str "10.0.0.5") q :=
  (c3_find_host_by_ip_first (parseLines [str "Host dev", str "HostName 10.0.0.5"])
      (str "10.0.0.5")).1 (str "dev") (by decide)

/-- C4: with pairwise distinct aliases, `list_hosts` returns exactly the
aliases of the file's `Host` lines, in file order. -/
theorem c4_list_hosts_order (lines : List Str) (hnd : (hostAliases lines).Nodup) :
    list_hosts (parseLines lines) = hostAliases lines ∧
      (list_hosts (parseLines lines)).length = (hostAliases lines).length := by
  have h := keys_runLines lines ⟨[], none, []⟩ 1 (by simpa [pendKeys] using hnd)
    (by simp)
  have h1 : list_hosts (parseLines lines) = hostAliases lines := by
    unfold parseLines list_hosts
    simpa [pendKeys] using h
  exact ⟨h1, by rw [h1]⟩

/-- Witness for C4 on a three-line file with two distinct aliases. -/
theorem c4_witness :
    list_hosts (parseLines [str "Host a", str "Port 1", str "Host b"]) =
        hostAliases [str "Host a", str "Port 1", str "Host b"] ∧
      (list_hosts (parseLines [str "Host a", str "Port 1", str "Host b"])).length =
        (hostAliases [str "Host a", str "Port 1", str "Host b"]).length :=
  c4_list_hosts_order [str "Host a", str "Port 1", str "Host b"] (by decide)

/-- C5: a nonexistent/unreadable config file yields the empty directory,
and every lookup is total: `get_host` of an unknown alias is `none`, the
other operations return empty or absent results instead of failing. -/
theorem c5_total (a p : Str) (hosts : Hosts) :
    parse_config none = [] ∧
    get_host (parse_config none) a = none ∧
    list_hosts (parse_config none) = [] ∧
    search_hosts (parse_config none) p = [] ∧
    find_host_by_ip (parse_config none) a = none ∧
    (a ∉ list_hosts hosts → get_host hosts a = none) := by
  refine ⟨rfl, rfl, rfl, rfl, rfl, ?_⟩
  intro h
  exact dget_eq_none_of_not_mem h

/-- Witness for C5: unknown alias on a nonempty directory. -/
theorem c5_witness :
    get_host [(str "b", ([] : Config))] (str "a") = none :=
  (c5_total (str "a") (str "p") [(str "b", ([] : Config))]).2.2.2.2.2 (by decide)

/-- C6: `search_hosts` returns exactly the entries whose alias contains
the pattern as a case-insensitive substring, preserving directory order
(it is a sublist of the directory); `search_hosts("PROD")` matches the
alias `my-prod-1`. -/
theorem c6_search_ci_substring (lines : List Str) (pat : Str) :
    List.Sublist (search_hosts (parseLines lines) pat) (parseLines lines) ∧
    (∀ q, q ∈ search_hosts (parseLines lines) pat ↔
      q ∈ parseLines lines ∧ ∃ l r, pyLower q.1 = l ++ pyLower pat ++ r) ∧
    search_hosts (parseLines [str "Host my-prod-1", str "HostName p"]) (str "PROD") =
      [(str "my-prod-1",
        [(keyLineNumber, PyVal.int 1), (keyHostname, PyVal.str (str "p"))])] := by
  have hnd := parseLines_keys_nodup lines
  have hs : search_hosts (parseLines lines) pat =
      (parseLines lines).filter (fun p => hasSub (pyLower pat) (pyLower p.1)) := by
    unfold search_hosts
    rw [search_foldl pat (parseLines lines) [] (by simp) hnd]
    simp
  refine ⟨?_, ?_, by decide⟩
  · rw [hs]
    exact List.filter_sublist _
  · intro q
    rw [hs, List.mem_filter]
    constructor
    · rintro ⟨hq, hc⟩
      exact ⟨hq, (hasSub_iff _ _).mp hc⟩
    · rintro ⟨hq, hc⟩
      exact ⟨hq, (hasSub_iff _ _).mpr hc⟩

/-- Witness for C6: the `PROD` example. -/
theorem c6_witness :
    search_hosts (parseLines [str "Host my-prod-1", str "HostName p"]) (str "PROD") =
      [(str "my-prod-1",
        [(keyLineNumber, PyVal.int 1), (keyHostname, PyVal.str (str "p"))])] :=
  (c6_search_ci_substring [] []).2.2

/-- C7: every directive key stored in every committed entry is fixed by
lower-casing, and the spellings `HostName` and `hostname` produce the
same parsed directory. -/
theorem c7_keys_lowercase (lines : List Str) (a : Str) (c : Config) (k : Str)
    (v : PyVal) (hc : dget (parseLines lines) a = some c) (hk : (k, v) ∈ c) :
    pyLower k = k ∧
      parseLines [str "Host a", str "HostName x"] =
        parseLines [str "Host a", str "hostname x"] := by
  refine ⟨?_, by decide⟩
  have hmem : (a, c) ∈ parseLines lines := dget_mem hc
  have inv := lower_invariant lines ⟨[], none, []⟩ 1 (by simp) (by simp)
  unfold parseLines at hmem
  rcases mem_commitCurrent hmem with h | h
  · exact inv.1 (a, c) h (k, v) hk
  · have h' : c = (runLines ⟨[], none, []⟩ 1 lines).currentConfig := h
    exact inv.2 (k, v) (by rw [← h']; exact hk)

/-- Witness for C7 at the `HostName x` example. -/
theorem c7_witness :
    pyLower keyHostname = keyHostname ∧
      parseLines [str "Host a", str "HostName x"] =
        parseLines [str "Host a", str "hostname x"] :=
  c7_keys_lowercase [str "Host a", str "HostName x"] (str "a")
    [(keyLineNumber, PyVal.int 1), (keyHostname, PyVal.str (str "x"))]
    keyHostname (PyVal.str (str "x")) (by decide) (by decide)

/-- C8: a line that strips to empty or whose first non-whitespace
character is `#` leaves the loop state completely unchanged, so a comment
or blank line between two directives of one host breaks nothing: both
directives land in that host's entry. -/
theorem c8_comments_blanks_skipped (st : ParseSt) (n : Nat) (l : Str)
    (h : pyStrip l = [] ∨ (pyStrip l).head? = some 35) :
    processLine st n l = st ∧
      dget (parseLines [str "Host h", str "Port 1", str "# c", str "",
          str "HostName y"]) (str "h") =
        some [(keyLineNumber, PyVal.int 1), (str "port", PyVal.str (str "1")),
          (keyHostname, PyVal.str (str "y"))] := by
  refine ⟨?_, by decide⟩
  apply processLine_skip
  unfold lineParts
  rcases h with h | h
  · rw [h]
    simp
  · rw [h]
    simp

/-- Witness for C8 on an indented comment line. -/
theorem c8_witness :
    processLine ⟨[], none, []⟩ 5 (str "   # a comment") = ⟨[], none, []⟩ ∧
      dget (parseLines [str "Host h", str "Port 1", str "# c", str "",
          str "HostName y"]) (str "h") =
        some [(keyLineNumber, PyVal.int 1), (str "port", PyVal.str (str "1")),
          (keyHostname, PyVal.str (str "y"))] :=
  c8_comments_blanks_skipped ⟨[], none, []⟩ 5 (str "   # a comment")
    (Or.inr (by decide))

/-- C9: a `Host` line whose value contains internal whitespace yields one
single entry whose alias is the entire remainder after the first split —
the remainder is never split further. -/
theorem c9_alias_whole_remainder (v : Str) (c d : Nat)
    (hh : v.head? = some c) (hcs : pyIsSpace c = false)
    (hl : v.getLast? = some d) (hds : pyIsSpace d = false) :
    parseLines [str "Host " ++ v] = [(v, [(keyLineNumber, PyVal.int 1)])] := by
  have hlp := lineParts_host_line v hh hcs hl hds
  have hha : hostAliasOf (str "Host " ++ v) = some v := by
    rw [hostAliasOf_eq_some]
    exact hlp
  unfold parseLines
  simp only [runLines]
  rw [processLine_host _ 1 hha]
  rfl

/-- Witness for C9 at `Host a b`: one entry with alias `a b`. -/
theorem c9_witness :
    parseLines [str "Host a b"] = [(str "a b", [(keyLineNumber, PyVal.int 1)])] :=
  c9_alias_whole_remainder (str "a b") 97 98 (by decide) (by decide) (by decide)
    (by decide)

/-- C10: a directive whose key lower-cases to `line_number` overwrites
the seeded line-number diagnostic in place, so the committed entry's
`line_number` value is the directive's string, not the `Host` line's
index. -/
theorem c10_line_number_overwritten (st : ParseSt) (n : Nat) (l : Str) (v : Str)
    (hsome : st.currentHost.isSome = true)
    (hp : lineParts l = some (keyLineNumber, v)) :
    (processLine st n l).currentConfig =
        dinsert st.currentConfig keyLineNumber (PyVal.str v) ∧
      dget ((processLine st n l).currentConfig) keyLineNumber =
        some (PyVal.str v) ∧
      parseLines [str "Host a", str "Line_Number 99"] =
        [(str "a", [(keyLineNumber, PyVal.str (str "99"))])] := by
  cases hch : st.currentHost with
  | none =>
      rw [hch] at hsome
      simp at hsome
  | some a =>
      have hk : ¬ keyLineNumber = keyHost := by decide
      rw [processLine_directive st n hp hk hch]
      exact ⟨rfl, dget_dinsert_self _ _ _, by decide⟩

/-- Witness for C10 on a concrete in-progress host. -/
theorem c10_witness :
    (processLine ⟨[], some (str "a"), [(keyLineNumber, PyVal.int 1)]⟩ 2
          (str "Line_Number 99")).currentConfig =
        dinsert [(keyLineNumber, PyVal.int 1)] keyLineNumber
          (PyVal.str (str "99")) ∧
      dget ((processLine ⟨[], some (str "a"), [(keyLineNumber, PyVal.int 1)]⟩ 2
          (str "Line_Number 99")).currentConfig) keyLineNumber =
        some (PyVal.str (str "99")) ∧
      parseLines [str "Host a", str "Line_Number 99"] =
        [(str "a", [(keyLineNumber, PyVal.str (str "99"))])] :=
  c10_line_number_overwritten ⟨[], some (str "a"), [(keyLineNumber, PyVal.int 1)]⟩ 2
    (str "Line_Number 99") (str "99") (by decide) (by decide)
